import Mathlib

/-!
Verification of the bounded recursive JSON transformer of the dog-cat-api
repository (src/services/jsonReplacer.ts), shallowly embedded in Lean 4.

The TypeScript service walks an untyped JSON value, replaces exact
whole-word occurrences of the source token "dog" by the target token
"cat" in string values, counts the replacements against a budget,
enforces a recursion-depth ceiling, and strips prototype-pollution keys.
The mutable `ReplacementContext` threaded through the recursion is
modelled by explicit state passing; the thrown `DepthLimitExceededError`
(with its `finally`-based depth restoration) is modelled by returning an
`Except` value *together with* the final context, which mirrors the
JavaScript semantics where the context outlives the throw.
-/

namespace DogCat

/-- ASCII alphanumeric test, the character classes `[a-zA-Z0-9]` used by
the word-boundary lookbehind/lookahead of `replaceInString`. -/
def isAsciiAlnum (c : Char) : Bool :=
  (('a' ≤ c && c ≤ 'z') || ('A' ≤ c && c ≤ 'Z') || ('0' ≤ c && c ≤ '9'))

/-- The JSON value model (`JsonValue` in src/types): null, booleans,
numbers, strings, ordered arrays, and insertion-ordered objects.
Numbers are carried opaquely (the transformer never inspects them). -/
inductive JsonValue where
  | null : JsonValue
  | bool (b : Bool) : JsonValue
  | num (n : Int) : JsonValue
  | str (s : String) : JsonValue
  | arr (items : List JsonValue) : JsonValue
  | obj (fields : List (String × JsonValue)) : JsonValue
deriving Repr

/-- Type `ReplacementContext` from src/types: the mutable state threaded
through one traversal. -/
structure ReplacementContext where
  count : Nat
  limit : Nat
  depth : Nat
  maxDepth : Nat
deriving Repr

/-- Type `DepthLimitExceededError` from src/types, carrying the configured
maximum depth. -/
structure DepthLimitExceededError where
  maxDepth : Nat
deriving Repr

/-- Type `ReplacementResult` from src/types. -/
structure ReplacementResult where
  result : JsonValue
  replacements : Nat
  limitReached : Bool
deriving Repr

/-- The dangerous object keys filtered out to prevent prototype
pollution (`DANGEROUS_KEYS` in jsonReplacer.ts). -/
def DANGEROUS_KEYS : List String := ["__proto__", "constructor", "prototype"]

/-- The source token `SOURCE_WORD = "dog"`. -/
def SOURCE_WORD : String := "dog"

/-- The target token `TARGET_WORD = "cat"`. -/
def TARGET_WORD : String := "cat"

/-- Lookbehind `(?<![a-zA-Z0-9])`: the character before the candidate
match (none at the start of the string) must not be ASCII alphanumeric. -/
def prevBoundaryOk (prev : Option Char) : Bool :=
  match prev with
  | none => true
  | some c => !isAsciiAlnum c

/-- Lookahead `(?![a-zA-Z0-9])`: the character after the candidate match
(none at the end of the string) must not be ASCII alphanumeric. -/
def nextBoundaryOk (rest : List Char) : Bool :=
  match rest with
  | [] => true
  | c :: _ => !isAsciiAlnum c

/-- The `pattern.exec` scanning loop of `replaceInString`, position by
position.  `prev` is the character preceding the current position in the
original string (for the lookbehind).  At a word-bounded occurrence of
"dog": if the budget is already exhausted the remainder of the string is
returned verbatim (the early `return` inside the loop); otherwise "cat"
is emitted, the count is incremented, and scanning resumes after the
match (`prev` becomes the final 'g' of the matched source word, exactly
as the regex lastIndex advance does).  When the text "dog" occurs but a
boundary check rejects it, the regex engine searches on from the next
position; since neither 'o' nor 'g' can start a new occurrence of the
source word, the search equivalently resumes after the rejected token
with `prev` = 'g', which is how the rejection branch is written here. -/
def scanReplace (s : List Char) (prev : Option Char) (count limit : Nat) :
    List Char × Nat :=
  match s with
  | 'd' :: 'o' :: 'g' :: rest =>
    if prevBoundaryOk prev && nextBoundaryOk rest then
      if limit ≤ count then
        ('d' :: 'o' :: 'g' :: rest, count)
      else
        let p := scanReplace rest (some 'g') (count + 1) limit
        ('c' :: 'a' :: 't' :: p.1, p.2)
    else
      let p := scanReplace rest (some 'g') count limit
      ('d' :: 'o' :: 'g' :: p.1, p.2)
  | c :: cs =>
    let p := scanReplace cs (some c) count limit
    (c :: p.1, p.2)
  | [] => ([], count)

/-- Function `replaceInString` from jsonReplacer.ts: if the budget is already
exhausted the string is returned unchanged, otherwise the word-bounded
occurrences of the source word are replaced left to right until the
budget runs out. -/
def replaceInString (str : String) (ctx : ReplacementContext) :
    String × ReplacementContext :=
  if ctx.limit ≤ ctx.count then
    (str, ctx)
  else
    let p := scanReplace str.data none ctx.count ctx.limit
    (String.mk p.1, { ctx with count := p.2 })

mutual

/-- Function `traverse` from jsonReplacer.ts.  Checks the depth limit at entry,
replaces in strings, passes atoms through, and recurses into containers
with the depth incremented; the `finally` clause restoring the depth on
both normal and exceptional exit is modelled by decrementing the depth of
the context returned alongside either an `ok` or an `error` outcome. -/
def traverse (value : JsonValue) (context : ReplacementContext) :
    Except DepthLimitExceededError JsonValue × ReplacementContext :=
  if context.maxDepth < context.depth then
    (Except.error ⟨context.maxDepth⟩, context)
  else
    match value with
    | .null => (Except.ok .null, context)
    | .str s =>
      let p := replaceInString s context
      (Except.ok (.str p.1), p.2)
    | .num n => (Except.ok (.num n), context)
    | .bool b => (Except.ok (.bool b), context)
    | .arr items =>
      let entered := { context with depth := context.depth + 1 }
      match traverseArray items entered with
      | (Except.error e, c) => (Except.error e, { c with depth := c.depth - 1 })
      | (Except.ok vs, c) => (Except.ok (.arr vs), { c with depth := c.depth - 1 })
    | .obj fields =>
      let entered := { context with depth := context.depth + 1 }
      match traverseObject fields entered with
      | (Except.error e, c) => (Except.error e, { c with depth := c.depth - 1 })
      | (Except.ok fs, c) => (Except.ok (.obj fs), { c with depth := c.depth - 1 })

/-- Function `traverseArray` from jsonReplacer.ts: each element in order; the
first depth error aborts the rest (the thrown exception propagates). -/
def traverseArray (arr : List JsonValue) (context : ReplacementContext) :
    Except DepthLimitExceededError (List JsonValue) × ReplacementContext :=
  match arr with
  | [] => (Except.ok [], context)
  | item :: rest =>
    match traverse item context with
    | (Except.error e, c) => (Except.error e, c)
    | (Except.ok v, c) =>
      match traverseArray rest c with
      | (Except.error e, c2) => (Except.error e, c2)
      | (Except.ok vs, c2) => (Except.ok (v :: vs), c2)

/-- Function `traverseObject` from jsonReplacer.ts: keys in insertion order,
dangerous keys skipped entirely (neither traversed nor kept), the other
keys kept with their traversed values. -/
def traverseObject (obj : List (String × JsonValue)) (context : ReplacementContext) :
    Except DepthLimitExceededError (List (String × JsonValue)) × ReplacementContext :=
  match obj with
  | [] => (Except.ok [], context)
  | (key, v) :: rest =>
    if DANGEROUS_KEYS.contains key then
      traverseObject rest context
    else
      match traverse v context with
      | (Except.error e, c) => (Except.error e, c)
      | (Except.ok w, c) =>
        match traverseObject rest c with
        | (Except.error e, c2) => (Except.error e, c2)
        | (Except.ok fs, c2) => (Except.ok ((key, w) :: fs), c2)

end

/-- Function `replaceDogsWithCats` from jsonReplacer.ts: runs the traversal with a
fresh context (count 0, depth 0) and packages the result with
`replacements = context.count` and `limitReached = count >= limit`. -/
def replaceDogsWithCats (input : JsonValue) (maxReplacements : Nat)
    (maxDepth : Nat) : Except DepthLimitExceededError ReplacementResult :=
  let context : ReplacementContext :=
    { count := 0, limit := maxReplacements, depth := 0, maxDepth := maxDepth }
  match traverse input context with
  | (Except.error e, _) => Except.error e
  | (Except.ok result, c) =>
    Except.ok { result := result, replacements := c.count,
                limitReached := decide (c.limit ≤ c.count) }

/-- Number of word-bounded occurrences of the source word the scanner
recognizes in `s` when the character before `s` is `prev`; the scanning
discipline (advance past a recognized or rejected token) is the same as
in `scanReplace`. -/
def countMatches (s : List Char) (prev : Option Char) : Nat :=
  match s with
  | 'd' :: 'o' :: 'g' :: rest =>
    if prevBoundaryOk prev && nextBoundaryOk rest then
      countMatches rest (some 'g') + 1
    else
      countMatches rest (some 'g')
  | c :: cs => countMatches cs (some c)
  | [] => 0

/-- Spec-side description of the claimed replacement discipline, written
from the spec's words and not from the source, to be compared with
`scanReplace`: scan the string strictly left to right; at each
word-bounded occurrence of the source token, if any budget remains,
substitute the target token consuming exactly one unit of the remaining
budget and continue to the right, and the instant the budget is
exhausted return the remainder of the string (any further matches
included) verbatim; every other character is copied unchanged.  Returns
the output characters and the number of replacements made. -/
def specLeftToRight (s : List Char) (prev : Option Char) (budget : Nat) :
    List Char × Nat :=
  match s with
  | 'd' :: 'o' :: 'g' :: rest =>
    if prevBoundaryOk prev && nextBoundaryOk rest then
      match budget with
      | 0 => ('d' :: 'o' :: 'g' :: rest, 0)
      | b + 1 =>
        let p := specLeftToRight rest (some 'g') b
        ('c' :: 'a' :: 't' :: p.1, p.2 + 1)
    else
      let p := specLeftToRight rest (some 'g') budget
      ('d' :: 'o' :: 'g' :: p.1, p.2)
  | c :: cs =>
    let p := specLeftToRight cs (some c) budget
    (c :: p.1, p.2)
  | [] => ([], 0)

mutual

/-- Nesting depth of the deepest value inside `v`: atoms sit at depth 0,
every array/object hop adds one.  This is the depth at which `traverse`
visits the deepest value when `v` is the root. -/
def depthOf : JsonValue → Nat
  | .null => 0
  | .bool _ => 0
  | .num _ => 0
  | .str _ => 0
  | .arr items => depthOfList items
  | .obj fields => depthOfFields fields

/-- Depth contributed by the elements of an array, each one level down. -/
def depthOfList : List JsonValue → Nat
  | [] => 0
  | v :: rest => max (depthOf v + 1) (depthOfList rest)

/-- Depth contributed by the values of an object, each one level down. -/
def depthOfFields : List (String × JsonValue) → Nat
  | [] => 0
  | (_, v) :: rest => max (depthOf v + 1) (depthOfFields rest)

end

mutual

/-- Holds (`true`) when no object anywhere inside `v` carries a key from
`DANGEROUS_KEYS`. -/
def noDangerousKeys : JsonValue → Bool
  | .null => true
  | .bool _ => true
  | .num _ => true
  | .str _ => true
  | .arr items => noDangerousKeysList items
  | .obj fields => noDangerousKeysFields fields

/-- Predicate `noDangerousKeys` over the elements of an array. -/
def noDangerousKeysList : List JsonValue → Bool
  | [] => true
  | v :: rest => noDangerousKeys v && noDangerousKeysList rest

/-- Predicate `noDangerousKeys` over the fields of an object, also requiring every
key of the object itself to be safe. -/
def noDangerousKeysFields : List (String × JsonValue) → Bool
  | [] => true
  | (k, v) :: rest =>
    !DANGEROUS_KEYS.contains k && noDangerousKeys v && noDangerousKeysFields rest

end

mutual

/-- Holds (`true`) when no string value anywhere inside `v` contains a
word-bounded occurrence of the source word. -/
def hasNoOccurrences : JsonValue → Bool
  | .null => true
  | .bool _ => true
  | .num _ => true
  | .str s => countMatches s.data none == 0
  | .arr items => hasNoOccurrencesList items
  | .obj fields => hasNoOccurrencesFields fields

/-- Predicate `hasNoOccurrences` over the elements of an array. -/
def hasNoOccurrencesList : List JsonValue → Bool
  | [] => true
  | v :: rest => hasNoOccurrences v && hasNoOccurrencesList rest

/-- Predicate `hasNoOccurrences` over the values of an object. -/
def hasNoOccurrencesFields : List (String × JsonValue) → Bool
  | [] => true
  | (_, v) :: rest => hasNoOccurrences v && hasNoOccurrencesFields rest

end

mutual

/-- The dangerous-key pruning performed by the reviver callback of
`safeJsonParse` (jsonReplacer.ts): for every object, at every level, the
keys in `DANGEROUS_KEYS` are removed together with their subtrees;
arrays and atoms pass through with their children revived.  `JSON.parse`
applies the reviver bottom-up; since the filtering of one object never
looks inside its values, the bottom-up pass computes exactly this
recursive function. -/
def reviveFilter : JsonValue → JsonValue
  | .null => .null
  | .bool b => .bool b
  | .num n => .num n
  | .str s => .str s
  | .arr items => .arr (reviveFilterList items)
  | .obj fields => .obj (reviveFilterFields fields)

/-- Mapping `reviveFilter` over the elements of an array. -/
def reviveFilterList : List JsonValue → List JsonValue
  | [] => []
  | v :: rest => reviveFilter v :: reviveFilterList rest

/-- Mapping `reviveFilter` over the fields of an object, dropping dangerous keys. -/
def reviveFilterFields : List (String × JsonValue) → List (String × JsonValue)
  | [] => []
  | (k, v) :: rest =>
    if DANGEROUS_KEYS.contains k then
      reviveFilterFields rest
    else
      (k, reviveFilter v) :: reviveFilterFields rest

end

/-- Function `safeJsonParse` from jsonReplacer.ts.  The JSON grammar itself is
decoded by the host runtime's `JSON.parse`; `parsed` stands for the raw
value that decoding produced for the input text (when the text is not
valid JSON the host throws before the reviver runs, so no value is
returned at all).  The reviver callback passed by `safeJsonParse` is the
part implemented by this repository, and is modelled by `reviveFilter`. -/
def safeJsonParse (parsed : JsonValue) : JsonValue :=
  reviveFilter parsed

/-- How one traversal call is allowed to change the context: the
configuration fields `limit` and `maxDepth` are never written, the depth
is restored to its entry value, and the count only grows, staying within
the budget when it started within it. -/
def Evolves (a b : ReplacementContext) : Prop :=
  b.limit = a.limit ∧ b.maxDepth = a.maxDepth ∧ b.depth = a.depth ∧
    a.count ≤ b.count ∧ (a.count ≤ a.limit → b.count ≤ a.limit)

theorem scanReplace_count_mono (s : List Char) (prev : Option Char) (count limit : Nat) :
    count ≤ (scanReplace s prev count limit).2 := by
  induction s, prev, count, limit using scanReplace.induct with
  | case1 prev count limit rest hb hle =>
    simp only [scanReplace]
    rw [if_pos hb, if_pos hle]
  | case2 prev count limit rest hb hle ih =>
    simp only [scanReplace]
    rw [if_pos hb, if_neg hle]
    omega
  | case3 prev count limit rest hb ih =>
    simp only [scanReplace]
    rw [if_neg hb]
    omega
  | case4 prev count limit c cs h ih =>
    simp_all [scanReplace]
  | case5 prev count limit =>
    simp [scanReplace]

theorem scanReplace_count_le (s : List Char) (prev : Option Char) (count limit : Nat)
    (h : count ≤ limit) : (scanReplace s prev count limit).2 ≤ limit := by
  induction s, prev, count, limit using scanReplace.induct with
  | case1 prev count limit rest hb hle =>
    simp only [scanReplace]
    rw [if_pos hb, if_pos hle]
    omega
  | case2 prev count limit rest hb hle ih =>
    simp only [scanReplace]
    rw [if_pos hb, if_neg hle]
    exact ih (by omega)
  | case3 prev count limit rest hb ih =>
    simp only [scanReplace]
    rw [if_neg hb]
    exact ih h
  | case4 prev count limit c cs h2 ih =>
    simp_all [scanReplace]
  | case5 prev count limit =>
    simp [scanReplace]
    omega

theorem Evolves.refl (a : ReplacementContext) : Evolves a a := by
  simp [Evolves]

theorem Evolves.trans {a b c : ReplacementContext} (h1 : Evolves a b)
    (h2 : Evolves b c) : Evolves a c := by
  obtain ⟨e1, e2, e3, e4, e5⟩ := h1
  obtain ⟨f1, f2, f3, f4, f5⟩ := h2
  exact ⟨by omega, by omega, by omega, by omega, fun h => by omega⟩

theorem Evolves.pop {a c : ReplacementContext}
    (h : Evolves { a with depth := a.depth + 1 } c) :
    Evolves a { c with depth := c.depth - 1 } := by
  obtain ⟨e1, e2, e3, e4, e5⟩ := h
  simp_all [Evolves]

theorem replaceInString_evolves (s : String) (ctx : ReplacementContext) :
    Evolves ctx (replaceInString s ctx).2 := by
  unfold replaceInString
  split
  · exact Evolves.refl ctx
  · refine ⟨rfl, rfl, rfl, scanReplace_count_mono _ _ _ _, fun h => ?_⟩
    exact scanReplace_count_le _ _ _ _ h

/-- Joint context-evolution invariant for the three mutually recursive
traversal functions. -/
theorem traverse_evolves_all :
    (∀ (value : JsonValue) (context : ReplacementContext),
      Evolves context (traverse value context).2) ∧
    (∀ (obj : List (String × JsonValue)) (context : ReplacementContext),
      Evolves context (traverseObject obj context).2) ∧
    (∀ (arr : List JsonValue) (context : ReplacementContext),
      Evolves context (traverseArray arr context).2) := by
  apply traverse.mutual_induct
  · -- depth limit exceeded
    intro t context h
    rw [traverse.eq_def, if_pos h]
    exact Evolves.refl context
  · -- null
    intro context h
    simp only [traverse]
    rw [if_neg h]
    exact Evolves.refl context
  · -- string
    intro context h s
    simp only [traverse]
    rw [if_neg h]
    exact replaceInString_evolves s context
  · -- number
    intro context h n
    simp only [traverse]
    rw [if_neg h]
    exact Evolves.refl context
  · -- boolean
    intro context h b
    simp only [traverse]
    rw [if_neg h]
    exact Evolves.refl context
  · -- array, child traversal aborts
    intro context h items entered e c heq ih
    simp only [traverse]
    rw [if_neg h]
    simp only [heq]
    rw [heq] at ih
    exact Evolves.pop ih
  · -- array, child traversal succeeds
    intro context h items entered vs c heq ih
    simp only [traverse]
    rw [if_neg h]
    simp only [heq]
    rw [heq] at ih
    exact Evolves.pop ih
  · -- object, child traversal aborts
    intro context h fields entered e c heq ih
    simp only [traverse]
    rw [if_neg h]
    simp only [heq]
    rw [heq] at ih
    exact Evolves.pop ih
  · -- object, child traversal succeeds
    intro context h fields entered fs c heq ih
    simp only [traverse]
    rw [if_neg h]
    simp only [heq]
    rw [heq] at ih
    exact Evolves.pop ih
  · -- array nil
    intro context
    exact Evolves.refl context
  · -- array cons, head aborts
    intro context item rest e c heq ih
    simp only [traverseArray, heq]
    rw [heq] at ih
    exact ih
  · -- array cons, head ok, tail aborts
    intro context item rest v c heq1 e c2 heq2 ih1 ih2
    simp only [traverseArray, heq1, heq2]
    rw [heq1] at ih1
    rw [heq2] at ih2
    exact ih1.trans ih2
  · -- array cons, both ok
    intro context item rest v c heq1 vs c2 heq2 ih1 ih2
    simp only [traverseArray, heq1, heq2]
    rw [heq1] at ih1
    rw [heq2] at ih2
    exact ih1.trans ih2
  · -- object nil
    intro context
    exact Evolves.refl context
  · -- object cons, dangerous key skipped
    intro context key v rest hk ih
    simp only [traverseObject]
    rw [if_pos hk]
    exact ih
  · -- object cons, value aborts
    intro context key v rest hk e c heq ih
    simp only [traverseObject]
    rw [if_neg hk]
    simp only [heq]
    rw [heq] at ih
    exact ih
  · -- object cons, value ok, rest aborts
    intro context key v rest hk w c heq1 e c2 heq2 ih1 ih2
    simp only [traverseObject]
    rw [if_neg hk]
    simp only [heq1, heq2]
    rw [heq1] at ih1
    rw [heq2] at ih2
    exact ih1.trans ih2
  · -- object cons, both ok
    intro context key v rest hk w c heq1 fs c2 heq2 ih1 ih2
    simp only [traverseObject]
    rw [if_neg hk]
    simp only [heq1, heq2]
    rw [heq1] at ih1
    rw [heq2] at ih2
    exact ih1.trans ih2

/-- C1: for every JsonValue input, every limit ≥ 0 and maxDepth ≥ 1, if
`replaceDogsWithCats` returns a `ReplacementResult` then
`0 ≤ replacements ≤ limit` and `limitReached = (replacements ≥ limit)`:
the count saturates at the limit and never exceeds it. -/
theorem replaceDogsWithCats_budget_invariant (input : JsonValue) (limit maxDepth : Nat)
    (hM : 1 ≤ maxDepth) (res : ReplacementResult)
    (h : replaceDogsWithCats input limit maxDepth = Except.ok res) :
    0 ≤ res.replacements ∧ res.replacements ≤ limit ∧
      res.limitReached = decide (limit ≤ res.replacements) := by
  simp only [replaceDogsWithCats] at h
  have hev := traverse_evolves_all.1 input
      { count := 0, limit := limit, depth := 0, maxDepth := maxDepth }
  cases htr : traverse input
      { count := 0, limit := limit, depth := 0, maxDepth := maxDepth } with
  | mk fst snd =>
    rw [htr] at h hev
    cases fst with
    | error e => simp at h
    | ok v =>
      simp only [Except.ok.injEq] at h
      obtain ⟨e1, e2, e3, e4, e5⟩ := hev
      subst h
      refine ⟨Nat.zero_le _, e5 (Nat.zero_le _), ?_⟩
      simp only at e1
      rw [e1]

/-- Witness for C1 at input `"dog"`, limit 2, maxDepth 100
(`replaceDogsWithCats` returns `{ result := "cat", replacements := 1,
limitReached := false }` there). -/
theorem replaceDogsWithCats_budget_invariant_witness :
    (1 : Nat) ≤ 100 ∧
    0 ≤ (ReplacementResult.mk (.str "cat") 1 false).replacements ∧
    (ReplacementResult.mk (.str "cat") 1 false).replacements ≤ 2 ∧
    (ReplacementResult.mk (.str "cat") 1 false).limitReached =
      decide (2 ≤ (ReplacementResult.mk (.str "cat") 1 false).replacements) :=
  ⟨by decide,
   replaceDogsWithCats_budget_invariant (.str "dog") 2 100 (by decide) _ rfl⟩

/-- C9: the context's depth field is restored to its entry value after
every traversal of a subtree, both on normal return and when the
traversal aborts with a depth error partway through a container's
children (the `Except` outcome and the final context are returned
together, so this equation covers the throwing case as well). -/
theorem traverse_restores_depth (v : JsonValue) (c : ReplacementContext) :
    ((traverse v c).2).depth = c.depth :=
  (traverse_evolves_all.1 v c).2.2.1

/-- C4: matching is exact, case-sensitive and whole-word: the string
equal to the source token becomes exactly the target token with one
replacement (for any budget ≥ 1); gluing an ASCII alphanumeric character
after or before the source token suppresses the match entirely; and
"Dog", "DOG", "dOg" are returned unchanged. -/
theorem word_boundary_exact_match :
    (∀ limit M : Nat, 1 ≤ limit →
      replaceDogsWithCats (.str SOURCE_WORD) limit M =
        Except.ok { result := .str TARGET_WORD, replacements := 1,
                    limitReached := decide (limit ≤ 1) }) ∧
    (∀ (c : Char), isAsciiAlnum c = true → ∀ limit M : Nat,
      replaceDogsWithCats (.str (String.mk ('d' :: 'o' :: 'g' :: [c]))) limit M =
        Except.ok { result := .str (String.mk ('d' :: 'o' :: 'g' :: [c])),
                    replacements := 0, limitReached := decide (limit ≤ 0) } ∧
      replaceDogsWithCats (.str (String.mk (c :: ['d', 'o', 'g']))) limit M =
        Except.ok { result := .str (String.mk (c :: ['d', 'o', 'g'])),
                    replacements := 0, limitReached := decide (limit ≤ 0) }) ∧
    (replaceDogsWithCats (.str "Dog") 5 100 =
      Except.ok { result := .str "Dog", replacements := 0, limitReached := false } ∧
     replaceDogsWithCats (.str "DOG") 5 100 =
      Except.ok { result := .str "DOG", replacements := 0, limitReached := false } ∧
     replaceDogsWithCats (.str "dOg") 5 100 =
      Except.ok { result := .str "dOg", replacements := 0, limitReached := false }) := by
  refine ⟨?_, ?_, rfl, rfl, rfl⟩
  · intro limit M h
    have h0 : ¬(limit ≤ 0) := by omega
    simp [replaceDogsWithCats, traverse, replaceInString, scanReplace,
      prevBoundaryOk, nextBoundaryOk, isAsciiAlnum, SOURCE_WORD, TARGET_WORD, h0]
  · intro c hc limit M
    by_cases h0 : limit ≤ 0 <;>
      simp [replaceDogsWithCats, traverse, replaceInString, scanReplace,
        prevBoundaryOk, nextBoundaryOk, hc, h0]

/-- Witness for C4 at limit 1 / maxDepth 100 and at the suffix
character 's' with limit 2 / maxDepth 50. -/
theorem word_boundary_exact_match_witness :
    replaceDogsWithCats (.str SOURCE_WORD) 1 100 =
      Except.ok { result := .str TARGET_WORD, replacements := 1,
                  limitReached := decide ((1 : Nat) ≤ 1) } ∧
    replaceDogsWithCats (.str (String.mk ('d' :: 'o' :: 'g' :: ['s']))) 2 50 =
      Except.ok { result := .str (String.mk ('d' :: 'o' :: 'g' :: ['s'])),
                  replacements := 0, limitReached := decide ((2 : Nat) ≤ 0) } :=
  ⟨word_boundary_exact_match.1 1 100 (by decide),
   (word_boundary_exact_match.2.1 's' (by decide) 2 50).1⟩

/-- C10: the word-boundary classes are exactly ASCII `[a-zA-Z0-9]`, so
the source token adjacent to any non-ASCII-alphanumeric character
(including non-ASCII letters such as 'é') is word-bounded and replaced;
in particular "dogé" becomes "caté" with one replacement. -/
theorem nonascii_adjacent_replaced :
    (∀ (c : Char), isAsciiAlnum c = false → ∀ limit M : Nat, 1 ≤ limit →
      replaceDogsWithCats (.str (String.mk ('d' :: 'o' :: 'g' :: [c]))) limit M =
        Except.ok { result := .str (String.mk ('c' :: 'a' :: 't' :: [c])),
                    replacements := 1, limitReached := decide (limit ≤ 1) }) ∧
    replaceDogsWithCats (.str "dogé") 5 100 =
      Except.ok { result := .str "caté", replacements := 1, limitReached := false } := by
  refine ⟨?_, rfl⟩
  intro c hc limit M h
  have h0 : ¬(limit ≤ 0) := by omega
  have hnb : nextBoundaryOk [c] = true := by simp [nextBoundaryOk, hc]
  simp [replaceDogsWithCats, traverse, replaceInString, scanReplace,
    prevBoundaryOk, hnb, h0]

/-- Witness for C10 at the character 'é' with limit 5 / maxDepth 100. -/
theorem nonascii_adjacent_replaced_witness :
    isAsciiAlnum 'é' = false ∧
    replaceDogsWithCats (.str (String.mk ('d' :: 'o' :: 'g' :: ['é']))) 5 100 =
      Except.ok { result := .str (String.mk ('c' :: 'a' :: 't' :: ['é'])),
                  replacements := 1, limitReached := decide ((5 : Nat) ≤ 1) } :=
  ⟨by decide, nonascii_adjacent_replaced.1 'é' (by decide) 5 100 (by decide)⟩

theorem traverseObject_filter (fields : List (String × JsonValue)) :
    ∀ ctx, traverseObject fields ctx =
      traverseObject (fields.filter fun kv => !(DANGEROUS_KEYS.contains kv.1)) ctx := by
  induction fields with
  | nil => intro ctx; rfl
  | cons kv rest ih =>
    intro ctx
    obtain ⟨k, v⟩ := kv
    cases hk : DANGEROUS_KEYS.contains k with
    | true =>
      have h1 : traverseObject ((k, v) :: rest) ctx = traverseObject rest ctx := by
        simp only [traverseObject]
        rw [if_pos hk]
      have h2 : List.filter (fun kv => !DANGEROUS_KEYS.contains kv.1) ((k, v) :: rest) =
          List.filter (fun kv => !DANGEROUS_KEYS.contains kv.1) rest := by
        rw [List.filter_cons]
        simp only [hk, Bool.not_true]
        rw [if_neg (by simp : ¬(false = true))]
      rw [h1, h2]
      exact ih ctx
    | false =>
      have hknot : ¬(DANGEROUS_KEYS.contains k = true) := by
        rw [hk]
        exact Bool.false_ne_true
      have h2 : List.filter (fun kv => !DANGEROUS_KEYS.contains kv.1) ((k, v) :: rest) =
          (k, v) :: List.filter (fun kv => !DANGEROUS_KEYS.contains kv.1) rest := by
        rw [List.filter_cons]
        simp only [hk, Bool.not_false]
        rw [if_pos trivial]
      rw [h2]
      simp only [traverseObject]
      rw [if_neg hknot, if_neg hknot]
      split
      · rfl
      · next w c heq => rw [ih c]

theorem traverseObject_keys (fields : List (String × JsonValue)) :
    ∀ ctx fs c, traverseObject fields ctx = (Except.ok fs, c) →
      fs.map Prod.fst =
        (fields.filter fun kv => !(DANGEROUS_KEYS.contains kv.1)).map Prod.fst := by
  induction fields with
  | nil =>
    intro ctx fs c h
    simp only [traverseObject, Prod.mk.injEq, Except.ok.injEq] at h
    simp [← h.1]
  | cons kv rest ih =>
    intro ctx fs c h
    obtain ⟨k, v⟩ := kv
    cases hk : DANGEROUS_KEYS.contains k with
    | true =>
      simp only [traverseObject] at h
      rw [if_pos hk] at h
      have hrec := ih ctx fs c h
      rw [List.filter_cons]
      simp only [hk, Bool.not_true]
      rw [if_neg (by simp : ¬(false = true))]
      exact hrec
    | false =>
      have hknot : ¬(DANGEROUS_KEYS.contains k = true) := by
        rw [hk]
        exact Bool.false_ne_true
      simp only [traverseObject] at h
      rw [if_neg hknot] at h
      split at h
      · simp at h
      · next w c1 heq1 =>
        split at h
        · simp at h
        · next fs2 c2 heq2 =>
          simp only [Prod.mk.injEq, Except.ok.injEq] at h
          obtain ⟨h1, h2⟩ := h
          subst h1
          rw [List.filter_cons]
          simp only [hk, Bool.not_false]
          rw [if_pos trivial]
          simp only [List.map_cons, List.cons.injEq]
          exact ⟨trivial, ih c1 fs2 c2 heq2⟩

/-- C5: for every object processed by the traversal, the result (and the
whole replacement bookkeeping, the budget included) is exactly that of
the traversal of the object with its dangerous keys filtered away —
neither a dangerous key nor its subtree appears or consumes budget —
and on success the output keys are exactly the safe input keys in
order, each carrying its transformed value. -/
theorem traverseObject_drops_dangerous (fields : List (String × JsonValue))
    (ctx : ReplacementContext) :
    traverseObject fields ctx =
      traverseObject (fields.filter fun kv => !(DANGEROUS_KEYS.contains kv.1)) ctx ∧
    ∀ fs c, traverseObject fields ctx = (Except.ok fs, c) →
      fs.map Prod.fst =
        (fields.filter fun kv => !(DANGEROUS_KEYS.contains kv.1)).map Prod.fst :=
  ⟨traverseObject_filter fields ctx,
   fun fs c h => traverseObject_keys fields ctx fs c h⟩

/-- Witness for C5 at the object `{"__proto__": "dog", "a": "dog"}` with
a fresh context of limit 5 and maxDepth 100. -/
theorem traverseObject_drops_dangerous_witness :
    traverseObject [("__proto__", JsonValue.str "dog"), ("a", JsonValue.str "dog")]
        { count := 0, limit := 5, depth := 0, maxDepth := 100 } =
      traverseObject
        ([("__proto__", JsonValue.str "dog"), ("a", JsonValue.str "dog")].filter
          fun kv => !(DANGEROUS_KEYS.contains kv.1))
        { count := 0, limit := 5, depth := 0, maxDepth := 100 } ∧
    [("a", JsonValue.str "cat")].map Prod.fst =
      ([("__proto__", JsonValue.str "dog"), ("a", JsonValue.str "dog")].filter
          fun kv => !(DANGEROUS_KEYS.contains kv.1)).map Prod.fst :=
  ⟨(traverseObject_drops_dangerous
      [("__proto__", JsonValue.str "dog"), ("a", JsonValue.str "dog")]
      { count := 0, limit := 5, depth := 0, maxDepth := 100 }).1,
   (traverseObject_drops_dangerous
      [("__proto__", JsonValue.str "dog"), ("a", JsonValue.str "dog")]
      { count := 0, limit := 5, depth := 0, maxDepth := 100 }).2
     [("a", JsonValue.str "cat")] { count := 1, limit := 5, depth := 0, maxDepth := 100 } rfl⟩

theorem reviveFilter_safe_all :
    (∀ v, noDangerousKeys (reviveFilter v) = true) ∧
    (∀ fs, noDangerousKeysFields (reviveFilterFields fs) = true) ∧
    (∀ l, noDangerousKeysList (reviveFilterList l) = true) := by
  apply reviveFilter.mutual_induct <;>
    intros <;>
    simp_all [reviveFilter, reviveFilterList, reviveFilterFields,
      noDangerousKeys, noDangerousKeysList, noDangerousKeysFields]

/-- C6: whatever JSON value the host grammar decoding produced, the
value returned by `safeJsonParse` contains no key of `DANGEROUS_KEYS` in
any object at any nesting level — including objects inside arrays and
the root object. -/
theorem safeJsonParse_no_dangerous_keys (parsed : JsonValue) :
    noDangerousKeys (safeJsonParse parsed) = true :=
  reviveFilter_safe_all.1 parsed

theorem ctx_pop (a c : ReplacementContext)
    (h : c = { a with depth := a.depth + 1 }) :
    ({ c with depth := c.depth - 1 } : ReplacementContext) = a := by
  subst h
  cases a
  simp

theorem traverse_exhausted_all :
    (∀ (v : JsonValue) (ctx : ReplacementContext), ctx.limit ≤ ctx.count →
      (traverse v ctx).2 = ctx ∧
        ((traverse v ctx).1 = Except.error ⟨ctx.maxDepth⟩ ∨
         (traverse v ctx).1 = Except.ok (reviveFilter v))) ∧
    (∀ (fs : List (String × JsonValue)) (ctx : ReplacementContext),
      ctx.limit ≤ ctx.count →
      (traverseObject fs ctx).2 = ctx ∧
        ((traverseObject fs ctx).1 = Except.error ⟨ctx.maxDepth⟩ ∨
         (traverseObject fs ctx).1 = Except.ok (reviveFilterFields fs))) ∧
    (∀ (l : List JsonValue) (ctx : ReplacementContext), ctx.limit ≤ ctx.count →
      (traverseArray l ctx).2 = ctx ∧
        ((traverseArray l ctx).1 = Except.error ⟨ctx.maxDepth⟩ ∨
         (traverseArray l ctx).1 = Except.ok (reviveFilterList l))) := by
  apply traverse.mutual_induct
  · -- depth limit exceeded
    intro t context h hlim
    rw [traverse.eq_def, if_pos h]
    exact ⟨rfl, Or.inl rfl⟩
  · -- null
    intro context h hlim
    simp only [traverse]
    rw [if_neg h]
    exact ⟨rfl, Or.inr rfl⟩
  · -- string
    intro context h s hlim
    simp only [traverse, replaceInString]
    rw [if_neg h, if_pos hlim]
    exact ⟨rfl, Or.inr rfl⟩
  · -- number
    intro context h n hlim
    simp only [traverse]
    rw [if_neg h]
    exact ⟨rfl, Or.inr rfl⟩
  · -- boolean
    intro context h b hlim
    simp only [traverse]
    rw [if_neg h]
    exact ⟨rfl, Or.inr rfl⟩
  · -- array, child traversal aborts
    intro context h items entered e c heq ih
    intro hlim
    obtain ⟨h2, hdisj⟩ := ih hlim
    rw [heq] at h2 hdisj
    simp only [traverse]
    rw [if_neg h]
    simp only [heq]
    refine ⟨ctx_pop context c h2, Or.inl ?_⟩
    rcases hdisj with hd | hd
    · simp only [Except.error.injEq] at hd
      rw [hd]
    · simp at hd
  · -- array, child traversal succeeds
    intro context h items entered vs c heq ih
    intro hlim
    obtain ⟨h2, hdisj⟩ := ih hlim
    rw [heq] at h2 hdisj
    simp only [traverse]
    rw [if_neg h]
    simp only [heq]
    refine ⟨ctx_pop context c h2, Or.inr ?_⟩
    rcases hdisj with hd | hd
    · simp at hd
    · simp only [Except.ok.injEq] at hd
      rw [reviveFilter]
      rw [hd]
  · -- object, child traversal aborts
    intro context h fields entered e c heq ih
    intro hlim
    obtain ⟨h2, hdisj⟩ := ih hlim
    rw [heq] at h2 hdisj
    simp only [traverse]
    rw [if_neg h]
    simp only [heq]
    refine ⟨ctx_pop context c h2, Or.inl ?_⟩
    rcases hdisj with hd | hd
    · simp only [Except.error.injEq] at hd
      rw [hd]
    · simp at hd
  · -- object, child traversal succeeds
    intro context h fields entered fs c heq ih
    intro hlim
    obtain ⟨h2, hdisj⟩ := ih hlim
    rw [heq] at h2 hdisj
    simp only [traverse]
    rw [if_neg h]
    simp only [heq]
    refine ⟨ctx_pop context c h2, Or.inr ?_⟩
    rcases hdisj with hd | hd
    · simp at hd
    · simp only [Except.ok.injEq] at hd
      rw [reviveFilter]
      rw [hd]
  · -- array nil
    intro context hlim
    exact ⟨rfl, Or.inr rfl⟩
  · -- array cons, head aborts
    intro context item rest e c heq ih hlim
    obtain ⟨h2, hdisj⟩ := ih hlim
    rw [heq] at h2 hdisj
    simp only [traverseArray, heq]
    refine ⟨h2, Or.inl ?_⟩
    rcases hdisj with hd | hd
    · simp only [Except.error.injEq] at hd
      rw [hd]
    · simp at hd
  · -- array cons, head ok, tail aborts
    intro context item rest v c heq1 e c2 heq2 ih1 ih2 hlim
    obtain ⟨h21, hdisj1⟩ := ih1 hlim
    rw [heq1] at h21 hdisj1
    simp only at h21
    subst h21
    obtain ⟨h22, hdisj2⟩ := ih2 hlim
    rw [heq2] at h22 hdisj2
    simp only at h22
    subst h22
    simp only [traverseArray, heq1, heq2]
    refine ⟨trivial, Or.inl ?_⟩
    rcases hdisj2 with hd | hd
    · simp only [Except.error.injEq] at hd
      rw [hd]
    · simp at hd
  · -- array cons, both ok
    intro context item rest v c heq1 vs c2 heq2 ih1 ih2 hlim
    obtain ⟨h21, hdisj1⟩ := ih1 hlim
    rw [heq1] at h21 hdisj1
    simp only at h21
    subst h21
    obtain ⟨h22, hdisj2⟩ := ih2 hlim
    rw [heq2] at h22 hdisj2
    simp only at h22
    subst h22
    simp only [traverseArray, heq1, heq2]
    refine ⟨trivial, Or.inr ?_⟩
    rcases hdisj1 with hd1 | hd1
    · simp at hd1
    · rcases hdisj2 with hd2 | hd2
      · simp at hd2
      · simp only [Except.ok.injEq] at hd1 hd2
        rw [reviveFilterList, ← hd1, ← hd2]
  · -- object nil
    intro context hlim
    exact ⟨rfl, Or.inr rfl⟩
  · -- object cons, dangerous key skipped
    intro context key v rest hk ih hlim
    obtain ⟨h2, hdisj⟩ := ih hlim
    simp only [traverseObject]
    rw [if_pos hk]
    refine ⟨h2, ?_⟩
    rw [reviveFilterFields, if_pos hk]
    exact hdisj
  · -- object cons, value aborts
    intro context key v rest hk e c heq ih hlim
    obtain ⟨h2, hdisj⟩ := ih hlim
    rw [heq] at h2 hdisj
    simp only [traverseObject]
    rw [if_neg hk]
    simp only [heq]
    refine ⟨h2, Or.inl ?_⟩
    rcases hdisj with hd | hd
    · simp only [Except.error.injEq] at hd
      rw [hd]
    · simp at hd
  · -- object cons, value ok, rest aborts
    intro context key v rest hk w c heq1 e c2 heq2 ih1 ih2 hlim
    obtain ⟨h21, hdisj1⟩ := ih1 hlim
    rw [heq1] at h21 hdisj1
    simp only at h21
    subst h21
    obtain ⟨h22, hdisj2⟩ := ih2 hlim
    rw [heq2] at h22 hdisj2
    simp only at h22
    subst h22
    simp only [traverseObject]
    rw [if_neg hk]
    simp only [heq1, heq2]
    refine ⟨trivial, Or.inl ?_⟩
    rcases hdisj2 with hd | hd
    · simp only [Except.error.injEq] at hd
      rw [hd]
    · simp at hd
  · -- object cons, both ok
    intro context key v rest hk w c heq1 fs c2 heq2 ih1 ih2 hlim
    obtain ⟨h21, hdisj1⟩ := ih1 hlim
    rw [heq1] at h21 hdisj1
    simp only at h21
    subst h21
    obtain ⟨h22, hdisj2⟩ := ih2 hlim
    rw [heq2] at h22 hdisj2
    simp only at h22
    subst h22
    simp only [traverseObject]
    rw [if_neg hk]
    simp only [heq1, heq2]
    refine ⟨trivial, Or.inr ?_⟩
    rcases hdisj1 with hd1 | hd1
    · simp at hd1
    · rcases hdisj2 with hd2 | hd2
      · simp at hd2
      · simp only [Except.ok.injEq] at hd1 hd2
        rw [reviveFilterFields, if_neg hk, ← hd1, ← hd2]



/-- C7: with limit 0, whenever the transform returns a result, it
performed no replacements (`replacements = 0`, and the result is the
input with only the dangerous keys pruned, every string unchanged) and
`limitReached` is true regardless of whether any match exists, because
it is computed purely as `count >= limit` and `0 >= 0`. -/
theorem limit_zero_identity (v : JsonValue) (M : Nat) (res : ReplacementResult)
    (h : replaceDogsWithCats v 0 M = Except.ok res) :
    res.replacements = 0 ∧ res.limitReached = true ∧ res.result = reviveFilter v := by
  simp only [replaceDogsWithCats] at h
  have hx := traverse_exhausted_all.1 v
      { count := 0, limit := 0, depth := 0, maxDepth := M } (by simp)
  cases htr : traverse v { count := 0, limit := 0, depth := 0, maxDepth := M } with
  | mk fst snd =>
    rw [htr] at h hx
    obtain ⟨h2, hdisj⟩ := hx
    cases fst with
    | error e => simp at h
    | ok w =>
      simp only [Except.ok.injEq] at h
      subst h
      simp only at h2
      subst h2
      rcases hdisj with hd | hd
      · simp at hd
      · simp only [Except.ok.injEq] at hd
        subst hd
        exact ⟨rfl, rfl, rfl⟩

/-- Witness for C7 at input `"dog"` (which does contain a match) with
maxDepth 100. -/
theorem limit_zero_identity_witness :
    (ReplacementResult.mk (.str "dog") 0 true).replacements = 0 ∧
    (ReplacementResult.mk (.str "dog") 0 true).limitReached = true ∧
    (ReplacementResult.mk (.str "dog") 0 true).result = reviveFilter (.str "dog") :=
  limit_zero_identity (.str "dog") 100 _ rfl

theorem scanReplace_no_match (s : List Char) (prev : Option Char) (count limit : Nat)
    (h : countMatches s prev = 0) : scanReplace s prev count limit = (s, count) := by
  induction s, prev, count, limit using scanReplace.induct with
  | case1 prev count limit rest hb hle =>
    simp only [countMatches] at h
    rw [if_pos hb] at h
    omega
  | case2 prev count limit rest hb hle ih =>
    simp only [countMatches] at h
    rw [if_pos hb] at h
    omega
  | case3 prev count limit rest hb ih =>
    simp only [countMatches] at h
    rw [if_neg hb] at h
    simp only [scanReplace]
    rw [if_neg hb, ih h]
  | case4 prev count limit c cs hno ih =>
    simp_all [countMatches, scanReplace]
  | case5 prev count limit => rfl



theorem depthOf_mem_list {v : JsonValue} {l : List JsonValue} (h : v ∈ l) :
    depthOf v + 1 ≤ depthOfList l := by
  induction l with
  | nil => cases h
  | cons x rest ih =>
    simp only [depthOfList]
    rcases List.mem_cons.mp h with h1 | h1
    · subst h1
      omega
    · have := ih h1
      omega

theorem depthOf_mem_fields {kv : String × JsonValue} {l : List (String × JsonValue)}
    (h : kv ∈ l) : depthOf kv.2 + 1 ≤ depthOfFields l := by
  induction l with
  | nil => cases h
  | cons x rest ih =>
    obtain ⟨k, v⟩ := x
    simp only [depthOfFields]
    rcases List.mem_cons.mp h with h1 | h1
    · subst h1
      exact Nat.le_max_left _ _
    · have := ih h1
      omega

theorem replaceInString_no_match (s : String) (ctx : ReplacementContext)
    (h : countMatches s.data none = 0) : replaceInString s ctx = (s, ctx) := by
  unfold replaceInString
  split
  · rfl
  · rw [scanReplace_no_match s.data none ctx.count ctx.limit h]

theorem traverse_identity_all :
    (∀ (v : JsonValue) (ctx : ReplacementContext), noDangerousKeys v = true →
      hasNoOccurrences v = true → ctx.depth + depthOf v ≤ ctx.maxDepth →
      traverse v ctx = (Except.ok v, ctx)) ∧
    (∀ (fs : List (String × JsonValue)) (ctx : ReplacementContext),
      noDangerousKeysFields fs = true → hasNoOccurrencesFields fs = true →
      (∀ kv ∈ fs, ctx.depth + depthOf kv.2 ≤ ctx.maxDepth) →
      traverseObject fs ctx = (Except.ok fs, ctx)) ∧
    (∀ (l : List JsonValue) (ctx : ReplacementContext), noDangerousKeysList l = true →
      hasNoOccurrencesList l = true →
      (∀ v ∈ l, ctx.depth + depthOf v ≤ ctx.maxDepth) →
      traverseArray l ctx = (Except.ok l, ctx)) := by
  apply traverse.mutual_induct
  · -- depth limit exceeded: contradicts the depth hypothesis
    intro t context h hnd hocc hdep
    exact absurd hdep (by omega)
  · -- null
    intro context h hnd hocc hdep
    simp only [traverse]
    rw [if_neg h]
  · -- string
    intro context h s hnd hocc hdep
    simp only [traverse]
    rw [if_neg h]
    have hc : countMatches s.data none = 0 := by
      simpa [hasNoOccurrences] using hocc
    rw [replaceInString_no_match s context hc]
  · -- number
    intro context h n hnd hocc hdep
    simp only [traverse]
    rw [if_neg h]
  · -- boolean
    intro context h b hnd hocc hdep
    simp only [traverse]
    rw [if_neg h]
  · -- array, child traversal aborts: impossible under the hypotheses
    intro context h items entered e c heq ih hnd hocc hdep
    have hih := ih (by simpa [noDangerousKeys] using hnd)
      (by simpa [hasNoOccurrences] using hocc)
      (fun v hv => by
        have h1 := depthOf_mem_list hv
        simp only [depthOf] at hdep
        simp only
        omega)
    rw [heq] at hih
    simp at hih
  · -- array, child traversal succeeds
    intro context h items entered vs c heq ih hnd hocc hdep
    have hih := ih (by simpa [noDangerousKeys] using hnd)
      (by simpa [hasNoOccurrences] using hocc)
      (fun v hv => by
        have h1 := depthOf_mem_list hv
        simp only [depthOf] at hdep
        simp only
        omega)
    rw [heq] at hih
    simp only [Prod.mk.injEq, Except.ok.injEq] at hih
    obtain ⟨hv, hc⟩ := hih
    subst hv
    simp only [traverse]
    rw [if_neg h]
    simp only [heq]
    rw [Prod.mk.injEq]
    exact ⟨rfl, ctx_pop context c hc⟩
  · -- object, child traversal aborts: impossible
    intro context h fields entered e c heq ih hnd hocc hdep
    have hih := ih (by simpa [noDangerousKeys] using hnd)
      (by simpa [hasNoOccurrences] using hocc)
      (fun kv hkv => by
        have h1 := depthOf_mem_fields hkv
        simp only [depthOf] at hdep
        simp only
        omega)
    rw [heq] at hih
    simp at hih
  · -- object, child traversal succeeds
    intro context h fields entered fs c heq ih hnd hocc hdep
    have hih := ih (by simpa [noDangerousKeys] using hnd)
      (by simpa [hasNoOccurrences] using hocc)
      (fun kv hkv => by
        have h1 := depthOf_mem_fields hkv
        simp only [depthOf] at hdep
        simp only
        omega)
    rw [heq] at hih
    simp only [Prod.mk.injEq, Except.ok.injEq] at hih
    obtain ⟨hv, hc⟩ := hih
    subst hv
    simp only [traverse]
    rw [if_neg h]
    simp only [heq]
    rw [Prod.mk.injEq]
    exact ⟨rfl, ctx_pop context c hc⟩
  · -- array nil
    intro context hnd hocc hdep
    rfl
  · -- array cons, head aborts: impossible
    intro context item rest e c heq ih hnd hocc hdep
    simp only [noDangerousKeysList, Bool.and_eq_true] at hnd
    simp only [hasNoOccurrencesList, Bool.and_eq_true] at hocc
    have hih := ih hnd.1 hocc.1 (hdep item (List.mem_cons_self item rest))
    rw [heq] at hih
    simp at hih
  · -- array cons, head ok, tail aborts: impossible
    intro context item rest v c heq1 e c2 heq2 ih1 ih2 hnd hocc hdep
    simp only [noDangerousKeysList, Bool.and_eq_true] at hnd
    simp only [hasNoOccurrencesList, Bool.and_eq_true] at hocc
    have hih1 := ih1 hnd.1 hocc.1 (hdep item (List.mem_cons_self item rest))
    rw [heq1] at hih1
    simp only [Prod.mk.injEq, Except.ok.injEq] at hih1
    obtain ⟨hv, hc⟩ := hih1
    subst hc
    have hih2 := ih2 hnd.2 hocc.2
      (fun w hw => hdep w (List.mem_cons_of_mem item hw))
    rw [heq2] at hih2
    simp at hih2
  · -- array cons, both ok
    intro context item rest v c heq1 vs c2 heq2 ih1 ih2 hnd hocc hdep
    simp only [noDangerousKeysList, Bool.and_eq_true] at hnd
    simp only [hasNoOccurrencesList, Bool.and_eq_true] at hocc
    have hih1 := ih1 hnd.1 hocc.1 (hdep item (List.mem_cons_self item rest))
    rw [heq1] at hih1
    simp only [Prod.mk.injEq, Except.ok.injEq] at hih1
    obtain ⟨hv, hc⟩ := hih1
    subst hc
    have hih2 := ih2 hnd.2 hocc.2
      (fun w hw => hdep w (List.mem_cons_of_mem item hw))
    rw [heq2] at hih2
    simp only [Prod.mk.injEq, Except.ok.injEq] at hih2
    obtain ⟨hvs, hc2⟩ := hih2
    subst hc2
    simp only [traverseArray, heq1, heq2]
    rw [hv, hvs]
  · -- object nil
    intro context hnd hocc hdep
    rfl
  · -- object cons, dangerous key: impossible under no-dangerous hypothesis
    intro context key v rest hk ih hnd hocc hdep
    simp only [noDangerousKeysFields, Bool.and_eq_true] at hnd
    rw [hk] at hnd
    simp at hnd
  · -- object cons, value aborts: impossible
    intro context key v rest hk e c heq ih hnd hocc hdep
    simp only [noDangerousKeysFields, Bool.and_eq_true] at hnd
    simp only [hasNoOccurrencesFields, Bool.and_eq_true] at hocc
    have hih := ih hnd.1.2 hocc.1
      (hdep (key, v) (List.mem_cons_self (key, v) rest))
    rw [heq] at hih
    simp at hih
  · -- object cons, value ok, rest aborts: impossible
    intro context key v rest hk w c heq1 e c2 heq2 ih1 ih2 hnd hocc hdep
    simp only [noDangerousKeysFields, Bool.and_eq_true] at hnd
    simp only [hasNoOccurrencesFields, Bool.and_eq_true] at hocc
    have hih1 := ih1 hnd.1.2 hocc.1
      (hdep (key, v) (List.mem_cons_self (key, v) rest))
    rw [heq1] at hih1
    simp only [Prod.mk.injEq, Except.ok.injEq] at hih1
    obtain ⟨hv, hc⟩ := hih1
    subst hc
    have hih2 := ih2 hnd.2 hocc.2
      (fun kv hkv => hdep kv (List.mem_cons_of_mem (key, v) hkv))
    rw [heq2] at hih2
    simp at hih2
  · -- object cons, both ok
    intro context key v rest hk w c heq1 fs c2 heq2 ih1 ih2 hnd hocc hdep
    simp only [noDangerousKeysFields, Bool.and_eq_true] at hnd
    simp only [hasNoOccurrencesFields, Bool.and_eq_true] at hocc
    have hih1 := ih1 hnd.1.2 hocc.1
      (hdep (key, v) (List.mem_cons_self (key, v) rest))
    rw [heq1] at hih1
    simp only [Prod.mk.injEq, Except.ok.injEq] at hih1
    obtain ⟨hv, hc⟩ := hih1
    subst hc
    have hih2 := ih2 hnd.2 hocc.2
      (fun kv hkv => hdep kv (List.mem_cons_of_mem (key, v) hkv))
    rw [heq2] at hih2
    simp only [Prod.mk.injEq, Except.ok.injEq] at hih2
    obtain ⟨hfs, hc2⟩ := hih2
    subst hc2
    simp only [traverseObject]
    rw [if_neg hk]
    simp only [heq1, heq2]
    rw [hv, hfs]



/-- C8 (amended): every JsonValue with zero word-bounded occurrences of
the source token, containing no dangerous keys, and within the depth
bound, is returned structurally equal to the input with zero
replacements and `limitReached = false` whenever the limit is positive.
The no-dangerous-keys hypothesis is forced by the counterexample: an
object with a dangerous key is pruned, so it does not round-trip even
with zero occurrences. -/
theorem noop_roundtrip (v : JsonValue) (limit M : Nat) (hl : 1 ≤ limit)
    (hnd : noDangerousKeys v = true) (hocc : hasNoOccurrences v = true)
    (hd : depthOf v ≤ M) :
    replaceDogsWithCats v limit M =
      Except.ok { result := v, replacements := 0, limitReached := false } := by
  have hid := traverse_identity_all.1 v
      { count := 0, limit := limit, depth := 0, maxDepth := M } hnd hocc
      (by simpa using hd)
  simp only [replaceDogsWithCats]
  rw [hid]
  have hnl : ¬(limit ≤ 0) := by omega
  simp [hnl]

/-- Witness for C8 at `["bird", 7]` with limit 3 and maxDepth 10. -/
theorem noop_roundtrip_witness :
    (1 : Nat) ≤ 3 ∧
    noDangerousKeys (JsonValue.arr [JsonValue.str "bird", JsonValue.num 7]) = true ∧
    hasNoOccurrences (JsonValue.arr [JsonValue.str "bird", JsonValue.num 7]) = true ∧
    depthOf (JsonValue.arr [JsonValue.str "bird", JsonValue.num 7]) ≤ 10 ∧
    replaceDogsWithCats (JsonValue.arr [JsonValue.str "bird", JsonValue.num 7]) 3 10 =
      Except.ok { result := JsonValue.arr [JsonValue.str "bird", JsonValue.num 7],
                  replacements := 0, limitReached := false } :=
  ⟨by decide, rfl, rfl, by decide,
   noop_roundtrip (JsonValue.arr [JsonValue.str "bird", JsonValue.num 7]) 3 10
     (by decide) rfl rfl (by decide)⟩

/-- Counterexample to C8 as stated: `{"__proto__": 1}` contains zero
occurrences of the source token and is within the depth bound, yet the
transform returns `{}` — not a value structurally equal to the input —
because the dangerous key is dropped. -/
theorem noop_roundtrip_counterexample :
    hasNoOccurrences (JsonValue.obj [("__proto__", JsonValue.num 1)]) = true ∧
    depthOf (JsonValue.obj [("__proto__", JsonValue.num 1)]) ≤ 100 ∧
    replaceDogsWithCats (JsonValue.obj [("__proto__", JsonValue.num 1)]) 5 100 =
      Except.ok { result := JsonValue.obj [], replacements := 0, limitReached := false } ∧
    JsonValue.obj ([] : List (String × JsonValue)) ≠
      JsonValue.obj [("__proto__", JsonValue.num 1)] :=
  ⟨rfl, by decide, rfl, by simp⟩

theorem depthOfList_attains {l : List JsonValue} (h : 0 < depthOfList l) :
    ∃ v ∈ l, depthOfList l ≤ depthOf v + 1 := by
  induction l with
  | nil => simp [depthOfList] at h
  | cons x rest ih =>
    simp only [depthOfList] at h ⊢
    rcases Nat.le_total (depthOfList rest) (depthOf x + 1) with hle | hle
    · exact ⟨x, List.mem_cons_self x rest, by omega⟩
    · have h0 : 0 < depthOfList rest := by omega
      obtain ⟨v, hv, hb⟩ := ih h0
      exact ⟨v, List.mem_cons_of_mem x hv, by omega⟩

theorem depthOfFields_attains {l : List (String × JsonValue)} (h : 0 < depthOfFields l) :
    ∃ kv ∈ l, depthOfFields l ≤ depthOf kv.2 + 1 := by
  induction l with
  | nil => simp [depthOfFields] at h
  | cons x rest ih =>
    obtain ⟨k, v⟩ := x
    simp only [depthOfFields] at h ⊢
    rcases Nat.le_total (depthOfFields rest) (depthOf v + 1) with hle | hle
    · refine ⟨(k, v), List.mem_cons_self (k, v) rest, ?_⟩
      show max (depthOf v + 1) (depthOfFields rest) ≤ depthOf v + 1
      omega
    · have h0 : 0 < depthOfFields rest := by omega
      obtain ⟨kv, hkv, hb⟩ := ih h0
      exact ⟨kv, List.mem_cons_of_mem (k, v) hkv, by omega⟩

theorem traverse_depth_all :
    (∀ (v : JsonValue) (ctx : ReplacementContext), noDangerousKeys v = true →
      ((ctx.depth + depthOf v ≤ ctx.maxDepth → (traverse v ctx).1.isOk = true) ∧
       (ctx.maxDepth < ctx.depth + depthOf v →
         (traverse v ctx).1 = Except.error ⟨ctx.maxDepth⟩))) ∧
    (∀ (fs : List (String × JsonValue)) (ctx : ReplacementContext),
      noDangerousKeysFields fs = true →
      (((∀ kv ∈ fs, ctx.depth + depthOf kv.2 ≤ ctx.maxDepth) →
         (traverseObject fs ctx).1.isOk = true) ∧
       ((∃ kv ∈ fs, ctx.maxDepth < ctx.depth + depthOf kv.2) →
         (traverseObject fs ctx).1 = Except.error ⟨ctx.maxDepth⟩))) ∧
    (∀ (l : List JsonValue) (ctx : ReplacementContext), noDangerousKeysList l = true →
      (((∀ v ∈ l, ctx.depth + depthOf v ≤ ctx.maxDepth) →
         (traverseArray l ctx).1.isOk = true) ∧
       ((∃ v ∈ l, ctx.maxDepth < ctx.depth + depthOf v) →
         (traverseArray l ctx).1 = Except.error ⟨ctx.maxDepth⟩))) := by
  apply traverse.mutual_induct
  · -- depth limit exceeded
    intro t context h hnd
    rw [traverse.eq_def, if_pos h]
    exact ⟨fun hdep => absurd hdep (by omega), fun hgt => rfl⟩
  · -- null
    intro context h hnd
    simp only [traverse]
    rw [if_neg h]
    exact ⟨fun hdep => rfl, fun hgt => absurd hgt (by simp [depthOf] at hgt ⊢; omega)⟩
  · -- string
    intro context h s hnd
    simp only [traverse]
    rw [if_neg h]
    exact ⟨fun hdep => rfl, fun hgt => absurd hgt (by simp [depthOf] at hgt ⊢; omega)⟩
  · -- number
    intro context h n hnd
    simp only [traverse]
    rw [if_neg h]
    exact ⟨fun hdep => rfl, fun hgt => absurd hgt (by simp [depthOf] at hgt ⊢; omega)⟩
  · -- boolean
    intro context h b hnd
    simp only [traverse]
    rw [if_neg h]
    exact ⟨fun hdep => rfl, fun hgt => absurd hgt (by simp [depthOf] at hgt ⊢; omega)⟩
  · -- array, child traversal aborts
    intro context h items entered e c heq ih hnd
    have hih := ih (by simpa [noDangerousKeys] using hnd)
    constructor
    · intro hdep
      have hall : ∀ v ∈ items, entered.depth + depthOf v ≤ entered.maxDepth := by
        intro v hv
        have h1 := depthOf_mem_list hv
        simp only [depthOf] at hdep
        simp only
        omega
      have := hih.1 hall
      rw [heq] at this
      simp [Except.isOk, Except.toBool] at this
    · intro hgt
      simp only [depthOf] at hgt
      have hpos : 0 < depthOfList items := by omega
      obtain ⟨v, hv, hb⟩ := depthOfList_attains hpos
      have hvgt : entered.maxDepth < entered.depth + depthOf v := by
        simp only
        omega
      have herr := hih.2 ⟨v, hv, hvgt⟩
      rw [heq] at herr
      simp only [Except.error.injEq] at herr
      simp only [traverse]
      rw [if_neg h]
      simp only [heq]
      rw [herr]
  · -- array, child traversal succeeds
    intro context h items entered vs c heq ih hnd
    have hih := ih (by simpa [noDangerousKeys] using hnd)
    constructor
    · intro hdep
      simp only [traverse]
      rw [if_neg h]
      simp only [heq]
      rfl
    · intro hgt
      simp only [depthOf] at hgt
      have hpos : 0 < depthOfList items := by omega
      obtain ⟨v, hv, hb⟩ := depthOfList_attains hpos
      have hvgt : entered.maxDepth < entered.depth + depthOf v := by
        simp only
        omega
      have herr := hih.2 ⟨v, hv, hvgt⟩
      rw [heq] at herr
      simp at herr
  · -- object, child traversal aborts
    intro context h fields entered e c heq ih hnd
    have hih := ih (by simpa [noDangerousKeys] using hnd)
    constructor
    · intro hdep
      have hall : ∀ kv ∈ fields, entered.depth + depthOf kv.2 ≤ entered.maxDepth := by
        intro kv hkv
        have h1 := depthOf_mem_fields hkv
        simp only [depthOf] at hdep
        simp only
        omega
      have := hih.1 hall
      rw [heq] at this
      simp [Except.isOk, Except.toBool] at this
    · intro hgt
      simp only [depthOf] at hgt
      have hpos : 0 < depthOfFields fields := by omega
      obtain ⟨kv, hkv, hb⟩ := depthOfFields_attains hpos
      have hvgt : entered.maxDepth < entered.depth + depthOf kv.2 := by
        simp only
        omega
      have herr := hih.2 ⟨kv, hkv, hvgt⟩
      rw [heq] at herr
      simp only [Except.error.injEq] at herr
      simp only [traverse]
      rw [if_neg h]
      simp only [heq]
      rw [herr]
  · -- object, child traversal succeeds
    intro context h fields entered fs c heq ih hnd
    have hih := ih (by simpa [noDangerousKeys] using hnd)
    constructor
    · intro hdep
      simp only [traverse]
      rw [if_neg h]
      simp only [heq]
      rfl
    · intro hgt
      simp only [depthOf] at hgt
      have hpos : 0 < depthOfFields fields := by omega
      obtain ⟨kv, hkv, hb⟩ := depthOfFields_attains hpos
      have hvgt : entered.maxDepth < entered.depth + depthOf kv.2 := by
        simp only
        omega
      have herr := hih.2 ⟨kv, hkv, hvgt⟩
      rw [heq] at herr
      simp at herr
  · -- array nil
    intro context hnd
    exact ⟨fun hdep => rfl, fun hgt => by simp at hgt⟩
  · -- array cons, head aborts
    intro context item rest e c heq ih hnd
    simp only [noDangerousKeysList, Bool.and_eq_true] at hnd
    have hih1 := ih hnd.1
    have hmaxd : context.maxDepth < context.depth + depthOf item := by
      by_contra hc
      have := hih1.1 (by omega)
      rw [heq] at this
      simp [Except.isOk, Except.toBool] at this
    have herr := hih1.2 hmaxd
    rw [heq] at herr
    simp only [Except.error.injEq] at herr
    constructor
    · intro hall
      have := hall item (List.mem_cons_self item rest)
      omega
    · intro hex
      simp only [traverseArray, heq]
      rw [herr]
  · -- array cons, head ok, tail aborts
    intro context item rest v c heq1 e c2 heq2 ih1 ih2 hnd
    simp only [noDangerousKeysList, Bool.and_eq_true] at hnd
    have hev := traverse_evolves_all.1 item context
    rw [heq1] at hev
    obtain ⟨hlim, hmax, hdepth, hcnt, hble⟩ := hev
    simp only at hmax hdepth
    have hih2 := ih2 hnd.2
    have hexr : ∃ w ∈ rest, c.maxDepth < c.depth + depthOf w := by
      by_contra hc
      push_neg at hc
      have := hih2.1 (fun w hw => (hc w hw))
      rw [heq2] at this
      simp [Except.isOk, Except.toBool] at this
    have herr := hih2.2 hexr
    rw [heq2] at herr
    simp only [Except.error.injEq] at herr
    constructor
    · intro hall
      obtain ⟨w, hw, hgtw⟩ := hexr
      have := hall w (List.mem_cons_of_mem item hw)
      omega
    · intro hex
      simp only [traverseArray, heq1, heq2]
      rw [herr, hmax]
  · -- array cons, both ok
    intro context item rest v c heq1 vs c2 heq2 ih1 ih2 hnd
    simp only [noDangerousKeysList, Bool.and_eq_true] at hnd
    have hih1 := ih1 hnd.1
    have hih2 := ih2 hnd.2
    have hev := traverse_evolves_all.1 item context
    rw [heq1] at hev
    obtain ⟨hlim, hmax, hdepth, hcnt, hble⟩ := hev
    simp only at hmax hdepth
    constructor
    · intro hall
      simp only [traverseArray, heq1, heq2]
      rfl
    · intro hex
      obtain ⟨w, hw, hgtw⟩ := hex
      rcases List.mem_cons.mp hw with hw1 | hw1
      · subst hw1
        have := hih1.2 hgtw
        rw [heq1] at this
        simp [Except.isOk, Except.toBool] at this
      · have := hih2.2 ⟨w, hw1, by omega⟩
        rw [heq2] at this
        simp [Except.isOk, Except.toBool] at this
  · -- object nil
    intro context hnd
    exact ⟨fun hdep => rfl, fun hgt => by simp at hgt⟩
  · -- object cons, dangerous key
    intro context key v rest hk ih hnd
    simp only [noDangerousKeysFields, Bool.and_eq_true] at hnd
    rw [hk] at hnd
    simp at hnd
  · -- object cons, value aborts
    intro context key v rest hk e c heq ih hnd
    simp only [noDangerousKeysFields, Bool.and_eq_true] at hnd
    have hih1 := ih hnd.1.2
    have hmaxd : context.maxDepth < context.depth + depthOf v := by
      by_contra hc
      have := hih1.1 (by omega)
      rw [heq] at this
      simp [Except.isOk, Except.toBool] at this
    have herr := hih1.2 hmaxd
    rw [heq] at herr
    simp only [Except.error.injEq] at herr
    constructor
    · intro hall
      have := hall (key, v) (List.mem_cons_self (key, v) rest)
      simp only at this
      omega
    · intro hex
      simp only [traverseObject]
      rw [if_neg hk]
      simp only [heq]
      rw [herr]
  · -- object cons, value ok, rest aborts
    intro context key v rest hk w c heq1 e c2 heq2 ih1 ih2 hnd
    simp only [noDangerousKeysFields, Bool.and_eq_true] at hnd
    have hev := traverse_evolves_all.1 v context
    rw [heq1] at hev
    obtain ⟨hlim, hmax, hdepth, hcnt, hble⟩ := hev
    simp only at hmax hdepth
    have hih2 := ih2 hnd.2
    have hexr : ∃ kv ∈ rest, c.maxDepth < c.depth + depthOf kv.2 := by
      by_contra hc
      push_neg at hc
      have := hih2.1 (fun kv hkv => (hc kv hkv))
      rw [heq2] at this
      simp [Except.isOk, Except.toBool] at this
    have herr := hih2.2 hexr
    rw [heq2] at herr
    simp only [Except.error.injEq] at herr
    constructor
    · intro hall
      obtain ⟨kv, hkv, hgtkv⟩ := hexr
      have := hall kv (List.mem_cons_of_mem (key, v) hkv)
      omega
    · intro hex
      simp only [traverseObject]
      rw [if_neg hk]
      simp only [heq1, heq2]
      rw [herr, hmax]
  · -- object cons, both ok
    intro context key v rest hk w c heq1 fs c2 heq2 ih1 ih2 hnd
    simp only [noDangerousKeysFields, Bool.and_eq_true] at hnd
    have hih1 := ih1 hnd.1.2
    have hih2 := ih2 hnd.2
    have hev := traverse_evolves_all.1 v context
    rw [heq1] at hev
    obtain ⟨hlim, hmax, hdepth, hcnt, hble⟩ := hev
    simp only at hmax hdepth
    constructor
    · intro hall
      simp only [traverseObject]
      rw [if_neg hk]
      simp only [heq1, heq2]
      rfl
    · intro hex
      obtain ⟨kv, hkv, hgtkv⟩ := hex
      rcases List.mem_cons.mp hkv with hkv1 | hkv1
      · subst hkv1
        have := hih1.2 (by simpa using hgtkv)
        rw [heq1] at this
        simp [Except.isOk, Except.toBool] at this
      · have := hih2.2 ⟨kv, hkv1, by omega⟩
        rw [heq2] at this
        simp [Except.isOk, Except.toBool] at this



/-- C2 (amended): for every JsonValue input containing no dangerous
keys, whose deepest value sits below D nested container levels (root at
depth 0), and every maxDepth M ≥ 1, the transform succeeds when D ≤ M
and fails with `DepthLimitExceeded` carrying the configured maxDepth
when D > M; on failure only the error is returned (no partial result
exists in the `Except.error` case).  The no-dangerous-keys hypothesis
is forced by the counterexample: subtrees under a dangerous key are
dropped without traversal, so their nesting is never depth-checked. -/
theorem depth_boundary (v : JsonValue) (limit M : Nat) (hM : 1 ≤ M)
    (hnd : noDangerousKeys v = true) :
    (depthOf v ≤ M → (replaceDogsWithCats v limit M).isOk = true) ∧
    (M < depthOf v → replaceDogsWithCats v limit M = Except.error ⟨M⟩) := by
  have hch := traverse_depth_all.1 v
      { count := 0, limit := limit, depth := 0, maxDepth := M } hnd
  simp only [replaceDogsWithCats]
  cases htr : traverse v { count := 0, limit := limit, depth := 0, maxDepth := M } with
  | mk fst snd =>
    rw [htr] at hch
    constructor
    · intro hd
      have hok := hch.1 (by simpa using hd)
      cases fst with
      | error e => simp [Except.isOk, Except.toBool] at hok
      | ok w => rfl
    · intro hd
      have herr := hch.2 (by simpa using hd)
      cases fst with
      | error e =>
        simp only [Except.error.injEq] at herr
        simp only
        rw [herr]
      | ok w => simp at herr

/-- Witness for C2 at the boundary: `["a"]` has D = 1 = M and succeeds;
`[["a"]]` has D = 2 = M + 1 and fails with the configured maxDepth 1. -/
theorem depth_boundary_witness :
    (replaceDogsWithCats (JsonValue.arr [JsonValue.str "a"]) 5 1).isOk = true ∧
    replaceDogsWithCats (JsonValue.arr [JsonValue.arr [JsonValue.str "a"]]) 5 1 =
      Except.error ⟨1⟩ :=
  ⟨(depth_boundary (JsonValue.arr [JsonValue.str "a"]) 5 1 (by decide) rfl).1 (by decide),
   (depth_boundary (JsonValue.arr [JsonValue.arr [JsonValue.str "a"]]) 5 1
      (by decide) rfl).2 (by decide)⟩

/-- Counterexample to C2 as stated: `{"__proto__": [[[]]]}` has its
deepest value below D = 3 container levels, maxDepth is 1 < 3, yet the
transform succeeds (returning `{}`), because the dangerous key's subtree
is skipped before any depth check. -/
theorem depth_claim_counterexample :
    depthOf (JsonValue.obj
      [("__proto__", JsonValue.arr [JsonValue.arr [JsonValue.arr []]])]) = 3 ∧
    (1 : Nat) < 3 ∧
    replaceDogsWithCats (JsonValue.obj
        [("__proto__", JsonValue.arr [JsonValue.arr [JsonValue.arr []]])]) 5 1 =
      Except.ok { result := JsonValue.obj [], replacements := 0, limitReached := false } :=
  ⟨rfl, by decide, rfl⟩

/-- Once the count has reached the limit, the scanner copies the whole
remainder of the string — any further matches included — verbatim. -/
theorem scanReplace_exhausted_verbatim (s : List Char) (prev : Option Char)
    (count limit : Nat) (h : limit ≤ count) :
    scanReplace s prev count limit = (s, count) := by
  induction s, prev, count, limit using scanReplace.induct with
  | case1 prev count limit rest hb hle =>
    simp only [scanReplace]
    rw [if_pos hb, if_pos hle]
  | case2 prev count limit rest hb hle ih =>
    exact absurd h hle
  | case3 prev count limit rest hb ih =>
    simp only [scanReplace]
    rw [if_neg hb, ih h]
  | case4 prev count limit c cs hno ih =>
    simp_all [scanReplace]
  | case5 prev count limit => rfl

/-- With no budget left, the spec-side scan returns the remainder
verbatim with zero replacements. -/
theorem specLeftToRight_eq_zero (s : List Char) (prev : Option Char) (budget : Nat)
    (h : budget = 0) : specLeftToRight s prev budget = (s, 0) := by
  induction s, prev, budget using specLeftToRight.induct with
  | case1 prev rest hb =>
    simp only [specLeftToRight]
    rw [if_pos hb]
  | case2 prev rest hb b ih =>
    omega
  | case3 prev budget rest hb ih =>
    simp only [specLeftToRight]
    rw [if_neg hb, ih h]
  | case4 prev budget c cs hno ih =>
    simp_all [specLeftToRight]
  | case5 prev budget =>
    subst h
    rfl



/-- Refinement: for every string, scanner state and limit, the source
scanner computes exactly the spec-side strictly-left-to-right scan with
the remaining budget `limit - count`, the final count being the entry
count plus the number of replacements the spec scan makes. -/
theorem scanReplace_refines_spec (s : List Char) (prev : Option Char)
    (count limit : Nat) :
    scanReplace s prev count limit =
      ((specLeftToRight s prev (limit - count)).1,
       count + (specLeftToRight s prev (limit - count)).2) := by
  induction s, prev, count, limit using scanReplace.induct with
  | case1 prev count limit rest hb hle =>
    have hz : limit - count = 0 := by omega
    rw [hz, specLeftToRight_eq_zero _ _ _ rfl]
    simp only [scanReplace]
    rw [if_pos hb, if_pos hle]
    simp
  | case2 prev count limit rest hb hle ih =>
    have hb1 : limit - count = (limit - (count + 1)) + 1 := by omega
    simp only [scanReplace]
    rw [if_pos hb, if_neg hle, ih, hb1]
    simp only [specLeftToRight]
    rw [if_pos hb]
    rw [Prod.mk.injEq]
    exact ⟨rfl, by omega⟩
  | case3 prev count limit rest hb ih =>
    simp only [scanReplace]
    rw [if_neg hb, ih]
    simp only [specLeftToRight]
    rw [if_neg hb]
  | case4 prev count limit c cs hno ih =>
    simp_all [scanReplace, specLeftToRight]
  | case5 prev count limit =>
    simp [scanReplace, specLeftToRight]

/-- The spec-side scan makes exactly `min(matches, budget)`
replacements: one budget unit per match until the budget saturates. -/
theorem specLeftToRight_count_min (s : List Char) (prev : Option Char) (budget : Nat) :
    (specLeftToRight s prev budget).2 = min (countMatches s prev) budget := by
  induction s, prev, budget using specLeftToRight.induct with
  | case1 prev rest hb =>
    simp only [specLeftToRight, countMatches]
    rw [if_pos hb, if_pos hb]
    simp
  | case2 prev rest hb b ih =>
    simp only [specLeftToRight, countMatches]
    rw [if_pos hb, if_pos hb]
    simp only [ih]
    omega
  | case3 prev budget rest hb ih =>
    simp only [specLeftToRight, countMatches]
    rw [if_neg hb, if_neg hb]
    exact ih
  | case4 prev budget c cs hno ih =>
    simp_all [specLeftToRight, countMatches]
  | case5 prev budget =>
    simp [specLeftToRight, countMatches]



/-- C3: within a single string value, matches of the source token are
replaced strictly left to right, each consuming exactly one unit of
budget, and scanning stops the instant the count reaches the limit,
copying the remainder of the string (any further matches included)
verbatim.  Stated over all strings and limits: (1) `replaceInString`
equals the spec-side strictly-left-to-right budgeted scan
`specLeftToRight` on the remaining budget; (2) that scan consumes
exactly one unit per match, `min(matches, budget)` in total; (3) with
the limit reached, the entire remainder is returned verbatim; and (4)
the claim's concrete instance: `"dog dog dog dog dog"` with limit 3
gives exactly `"cat cat cat dog dog"`, 3 replacements, limit reached. -/
theorem early_termination_left_to_right :
    (∀ (s : String) (ctx : ReplacementContext),
      replaceInString s ctx =
        (String.mk (specLeftToRight s.data none (ctx.limit - ctx.count)).1,
         { ctx with
           count := ctx.count + (specLeftToRight s.data none (ctx.limit - ctx.count)).2 })) ∧
    (∀ (s : List Char) (prev : Option Char) (budget : Nat),
      (specLeftToRight s prev budget).2 = min (countMatches s prev) budget) ∧
    (∀ (s : List Char) (prev : Option Char) (count limit : Nat), limit ≤ count →
      scanReplace s prev count limit = (s, count)) ∧
    replaceDogsWithCats (.str "dog dog dog dog dog") 3 100 =
      Except.ok { result := .str "cat cat cat dog dog", replacements := 3,
                  limitReached := true } := by
  refine ⟨?_, specLeftToRight_count_min, scanReplace_exhausted_verbatim, rfl⟩
  intro s ctx
  unfold replaceInString
  split
  · next h =>
    rw [Nat.sub_eq_zero_of_le h, specLeftToRight_eq_zero _ _ _ rfl]
    rfl
  · next h =>
    rw [scanReplace_refines_spec]

/-- Witness for C3: the verbatim-remainder clause at `"dog"` with the
count already at the limit 2, and the refinement clause at `"dog dog"`
with budget 1. -/
theorem early_termination_left_to_right_witness :
    scanReplace ('d' :: 'o' :: 'g' :: []) none 2 2 = ('d' :: 'o' :: 'g' :: [], 2) ∧
    replaceInString "dog dog" { count := 0, limit := 1, depth := 0, maxDepth := 9 } =
      (String.mk (specLeftToRight "dog dog".data none (1 - 0)).1,
       { count := 0 + (specLeftToRight "dog dog".data none (1 - 0)).2,
         limit := 1, depth := 0, maxDepth := 9 }) :=
  ⟨early_termination_left_to_right.2.2.1 ('d' :: 'o' :: 'g' :: []) none 2 2 (by decide),
   early_termination_left_to_right.1 "dog dog"
     { count := 0, limit := 1, depth := 0, maxDepth := 9 }⟩

end DogCat
